import Mathlib

/-!
Verification of the rhizome DHT node against its specification.

This file shallowly embeds the parts of the source relevant to the claims:
  - `rhizome/utils/crypto.py`   (compute_distance)
  - `rhizome/dht/node.py`       (NodeID, Node)
  - `rhizome/dht/routing_table.py` (KBucket, RoutingTable)
  - `rhizome/dht/protocol.py`   (DHTProtocol.find_node / find_value / store)
  - `rhizome/popularity/ranking.py` (PopularityRanker)
  - `rhizome/popularity/exchanger.py` (median consensus of aggregate_global_ranking)
  - `rhizome/security/rate_limiter.py` (RateLimiter)

Python floats are modelled as rationals (ℚ), bytes objects as lists of `Fin 256`.
Python's stable `list.sort` is modelled by `List.insertionSort`, which is likewise
stable.  Asynchronous network calls are modelled by oracle functions giving, for
every peer, the outcome of an RPC to it (a value / no value / an exception), and
the iterative lookup loops are given explicit fuel: the Python loops terminate
because the universe of peers is finite, and every theorem below holds for every
fuel value.
-/

set_option maxRecDepth 4000

namespace Rhizome

instance {ε α : Type} [DecidableEq ε] [DecidableEq α] : DecidableEq (Except ε α) :=
  fun a b =>
    match a, b with
    | .ok x, .ok y => decidable_of_iff (x = y) (by simp)
    | .error x, .error y => decidable_of_iff (x = y) (by simp)
    | .ok _, .error _ => isFalse (by simp)
    | .error _, .ok _ => isFalse (by simp)

/-- A byte, as stored in a Python `bytes` object. -/
abbrev Byte := Fin 256

/-- A Python `bytes` value. -/
abbrev Bytes := List Byte

/-- XOR of two bytes (`a ^ b` on ints below 256 stays below 256). -/
def byteXor (a b : Byte) : Byte :=
  ⟨a.val ^^^ b.val, by
    have h : a.val ^^^ b.val < 2 ^ 8 := Nat.xor_lt_two_pow a.isLt b.isLt
    simpa using h⟩

/-- Byte-wise XOR, the body of `compute_distance` (`bytes(a ^ b for a, b in zip(...))`). -/
def xorBytes (a b : Bytes) : Bytes := List.zipWith byteXor a b

/-- `utils/crypto.py: compute_distance`: raises ValueError on unequal lengths,
otherwise returns the byte-wise XOR. -/
def compute_distance (node_id1 node_id2 : Bytes) : Except String Bytes :=
  if node_id1.length ≠ node_id2.length then
    .error "Node IDs must have the same length"
  else
    .ok (xorBytes node_id1 node_id2)

/-- Big-endian numeric value of a byte string.  Python compares the 20-byte
distance strings lexicographically, which on equal-length byte strings is
exactly comparison of these numbers. -/
def bytesToNat (b : Bytes) : Nat := b.foldl (fun acc x => acc * 256 + x.val) 0

/-- `dht/node.py: NodeID`: its `__post_init__` guarantees the id is exactly
20 bytes, so the type carries that invariant. -/
def NodeID := { l : Bytes // l.length = 20 }

instance : DecidableEq NodeID := Subtype.instDecidableEq

/-- `NodeID(id=b)`: the dataclass constructor, which raises ValueError unless
`len(b) == 20`. -/
def NodeID.mk? (b : Bytes) : Except String NodeID :=
  if h : b.length = 20 then .ok ⟨b, h⟩
  else .error "Node ID must be exactly 20 bytes (160 bits)"

/-- `dht/node.py: Node`.  Python `Node.__eq__` compares `node_id` only; the
embedding keeps all fields and compares by `node_id` explicitly where the
source does. -/
structure Node where
  node_id : NodeID
  address : String
  port : Nat
  last_seen : ℚ
  failed_pings : Nat
deriving DecidableEq

/-- `Node.is_stale`: `(now - last_seen) > timeout`, default timeout 3600 s. -/
def Node.is_stale (n : Node) (now : ℚ) : Prop := 3600 < now - n.last_seen

instance : DecidablePred (fun p : Node × ℚ => p.1.is_stale p.2) :=
  fun _ => Rat.instDecidableLt _ _

instance (n : Node) (now : ℚ) : Decidable (n.is_stale now) := Rat.instDecidableLt _ _

/-- Sort key used by `find_closest_nodes`: the XOR distance of a node's id to
the target, as a 160-bit number. -/
def nodeDistKey (n : Node) (target : NodeID) : Nat :=
  bytesToNat (xorBytes n.node_id.1 target.1)

/-- The comparison `find_closest_nodes` sorts by (ascending XOR distance). -/
def distLe (target : NodeID) (a b : Node) : Prop :=
  nodeDistKey a target ≤ nodeDistKey b target

instance (target : NodeID) : DecidableRel (distLe target) :=
  fun _ _ => Nat.decLe _ _

instance (target : NodeID) : IsTotal Node (distLe target) :=
  ⟨fun a b => Nat.le_total (nodeDistKey a target) (nodeDistKey b target)⟩

instance (target : NodeID) : IsTrans Node (distLe target) :=
  ⟨fun _ _ _ hab hbc => Nat.le_trans hab hbc⟩

/-- `dht/routing_table.py: KBucket`. -/
structure KBucket where
  k : Nat
  nodes : List Node
  last_updated : ℚ
deriving DecidableEq

instance : Inhabited KBucket := ⟨⟨20, [], 0⟩⟩

/-- Python `node in self.nodes` under `Node.__eq__` (node_id comparison). -/
def nodesContain (l : List Node) (n : Node) : Bool :=
  l.any (fun m => m.node_id = n.node_id)

/-- Python `self.nodes.remove(node)`: removes the first element equal to
`node` (equality by `node_id`). -/
def removeFirstById (nid : NodeID) : List Node → List Node
  | [] => []
  | m :: ms => if m.node_id = nid then ms else m :: removeFirstById nid ms

/-- `KBucket.add_node`: LRU move if already present, append if there is room,
otherwise refuse. -/
def KBucket.add_node (b : KBucket) (now : ℚ) (node : Node) : KBucket × Bool :=
  if nodesContain b.nodes node then
    ({ b with nodes := removeFirstById node.node_id b.nodes ++ [node], last_updated := now }, true)
  else if b.nodes.length < b.k then
    ({ b with nodes := b.nodes ++ [node], last_updated := now }, true)
  else
    (b, false)

/-- `KBucket.remove_node`. -/
def KBucket.remove_node (b : KBucket) (now : ℚ) (node : Node) : KBucket :=
  if nodesContain b.nodes node then
    { b with nodes := removeFirstById node.node_id b.nodes, last_updated := now }
  else b

/-- `KBucket.get_nodes`: `if limit:` is Python truthiness, so `None` and `0`
both return the whole list. -/
def KBucket.get_nodes (b : KBucket) (limit : Option Nat) : List Node :=
  match limit with
  | some l => if l ≠ 0 then b.nodes.take l else b.nodes
  | none => b.nodes

/-- `KBucket.is_full`: `len(self.nodes) >= self.k`. -/
def KBucket.is_full (b : KBucket) : Bool := b.k ≤ b.nodes.length

/-- `dht/routing_table.py: RoutingTable`. -/
structure RoutingTable where
  node_id : NodeID
  k : Nat
  buckets : List KBucket

/-- `RoutingTable.__init__`: `bucket_count` buckets of capacity `k` (the
source always constructs it with `bucket_count=160`). -/
def RoutingTable.init (node_id : NodeID) (k : Nat) (bucket_count : Nat) (now : ℚ) :
    RoutingTable :=
  ⟨node_id, k, List.replicate bucket_count ⟨k, [], now⟩⟩

/-- Inner loop of `_get_bucket_index`: first set bit of a byte, scanning the
mask `0x80 >> bit` for `bit` in `range(8)`. -/
def firstSetBitIdx (byte : Nat) : Option Nat :=
  (List.range 8).find? (fun bit => decide (byte &&& (128 >>> bit) ≠ 0))

/-- `_get_bucket_index`: position of the first nonzero bit of the distance
(big-endian); `numBuckets - 1` when the distance is zero. -/
def bucketIndexFromDist (numBuckets : Nat) : Nat → Bytes → Nat
  | _, [] => numBuckets - 1
  | i, byte :: rest =>
    if byte.val ≠ 0 then
      match firstSetBitIdx byte.val with
      | some bit => i * 8 + bit
      | none => bucketIndexFromDist numBuckets (i + 1) rest
    else bucketIndexFromDist numBuckets (i + 1) rest

def RoutingTable.getBucketIndex (rt : RoutingTable) (target : NodeID) : Nat :=
  bucketIndexFromDist rt.buckets.length 0 (xorBytes rt.node_id.1 target.1)

/-- `RoutingTable.add_node`: refuse self; on a full bucket evict the first
stale node (if any) before inserting. -/
def RoutingTable.add_node (rt : RoutingTable) (now : ℚ) (node : Node) :
    RoutingTable × Bool :=
  if node.node_id = rt.node_id then (rt, false)
  else
    let bi := rt.getBucketIndex node.node_id
    let bucket := rt.buckets.getD bi default
    if bucket.is_full then
      match bucket.nodes.filter (fun n => decide (n.is_stale now)) with
      | [] => (rt, false)
      | s :: _ =>
        let bucket1 := bucket.remove_node now s
        let (bucket2, ok) := bucket1.add_node now node
        ({ rt with buckets := rt.buckets.set bi bucket2 }, ok)
    else
      let (bucket2, ok) := bucket.add_node now node
      ({ rt with buckets := rt.buckets.set bi bucket2 }, ok)

/-- `RoutingTable.remove_node`. -/
def RoutingTable.remove_node (rt : RoutingTable) (now : ℚ) (node : Node) :
    RoutingTable :=
  let bi := rt.getBucketIndex node.node_id
  let bucket := rt.buckets.getD bi default
  { rt with buckets := rt.buckets.set bi (bucket.remove_node now node) }

/-- Candidate-gathering loop of `find_closest_nodes`: walk the buckets starting
at the target's bucket index (wrapping around), and stop as soon as at least
`count` candidates are collected. -/
def gatherLoop (buckets : List KBucket) (bi count : Nat) :
    List Nat → List Node → List Node
  | [], acc => acc
  | o :: os, acc =>
    let acc2 := acc ++ (buckets.getD ((bi + o) % buckets.length) default).get_nodes none
    if count ≤ acc2.length then acc2 else gatherLoop buckets bi count os acc2

/-- The candidates `find_closest_nodes` actually collects before sorting. -/
def RoutingTable.gathered (rt : RoutingTable) (target : NodeID) (count : Nat) :
    List Node :=
  gatherLoop rt.buckets (rt.getBucketIndex target) count
    (List.range rt.buckets.length) []

/-- `RoutingTable.find_closest_nodes`: gather, sort by XOR distance to the
target, truncate to `count`. -/
def RoutingTable.find_closest_nodes (rt : RoutingTable) (target : NodeID)
    (count : Nat) : List Node :=
  (List.insertionSort (distLe target) (rt.gathered target count)).take count

/-- `RoutingTable.get_all_nodes`. -/
def RoutingTable.get_all_nodes (rt : RoutingTable) : List Node :=
  rt.buckets.foldl (fun acc b => acc ++ b.nodes) []

/-! ## DHT protocol engine (`dht/protocol.py`)

The network side is an oracle: for every peer it fixes the outcome of a
`FIND_VALUE`, `FIND_NODE` or `STORE` RPC to that peer.  `Except.error` models
an exception surfacing from the RPC (the engine's `asyncio.gather(...,
return_exceptions=True)` / `try ... except` turn it into "this peer did not
help"); a timeout inside `NetworkProtocol` already yields `None`/`[]`/`False`
respectively, which the oracle models as an ordinary return value. -/

/-- Outcome of `network_protocol.find_value(key, node)` as observed by the
engine: a bytes value, a non-bytes return (`None`), or an exception. -/
inductive FVRes where
  | val (v : Bytes)
  | nores
  | exc
deriving DecidableEq

/-- The network oracle for a fixed key/value being looked up or stored. -/
structure Net where
  fvAt : Node → FVRes
  fnAt : Node → Except Unit (List Node)
  storeAt : Node → Except Unit Bool

/-- Environment of one `DHTProtocol` call: local storage, routing table and
an optional network. -/
structure DHTEnv where
  rt : RoutingTable
  localGet : Bytes → Option Bytes
  localPutOk : Bool
  net : Option Net

/-- `key[:20]` zero-padded to 20 bytes, as built by `find_value`/`store`. -/
def keyHash20 (key : Bytes) : Bytes :=
  if key.length ≥ 20 then key.take 20
  else key ++ List.replicate (20 - key.length) (0 : Byte)

/-- `NodeID(id=key_hash[:20])` in `find_value`/`store` (always 20 bytes). -/
def mkTargetId (key : Bytes) : NodeID :=
  ⟨keyHash20 key, by
    unfold keyHash20
    by_cases h : key.length ≥ 20
    · simp [h]
    · simp [h]
      omega⟩

/-- Python `seen_nodes[id] = node` on a dict: replace in place if the key is
present, else append. -/
def dictInsert (s : List Node) (n : Node) : List Node :=
  if nodesContain s n then
    s.map (fun m => if m.node_id = n.node_id then n else m)
  else s ++ [n]

/-- `if node.node_id not in seen_nodes: seen_nodes[...] = node`. -/
def insertIfAbsent (s : List Node) (n : Node) : List Node :=
  if nodesContain s n then s else s ++ [n]

/-- `queried.add(node.node_id)` on a set of ids. -/
def addQueried (q : List NodeID) (i : NodeID) : List NodeID :=
  if q.any (fun j => j = i) then q else q ++ [i]

/-- One dict-valued projection of the oracle: the value peer `p` would return,
if any. -/
def peerValue (net : Net) (p : Node) : Option Bytes :=
  match net.fvAt p with
  | .val v => some v
  | _ => none

/-- Iterative loop of `DHTProtocol.find_node`.  State: current shortlist
`closest`, dict `seen`, set `queried`.  The Python loop terminates because
peers are finite; `fuel` makes that explicit, and running out of fuel returns
the current shortlist exactly as the loop's `break` would. -/
def fnLoop (net : Net) (target : NodeID) :
    Nat → List Node → List Node → List NodeID → List Node
  | 0, closest, _, _ => closest.take 3
  | fuel + 1, closest, seen, queried =>
    let candidates := (closest.filter (fun n => ¬ queried.any (fun j => j = n.node_id))).take 3
    if candidates.isEmpty then closest.take 3
    else
      let results := candidates.map net.fnAt
      let step := results.foldl
        (fun (acc : List Node × Bool) r =>
          match r with
          | .ok lst => lst.foldl
              (fun (a : List Node × Bool) nd =>
                if nodesContain a.1 nd then a else (a.1 ++ [nd], true)) acc
          | .error _ => acc)
        (seen, false)
      let seen2 := step.1
      let queried2 := candidates.foldl (fun q c => addQueried q c.node_id) queried
      let closest2 := (List.insertionSort (distLe target) seen2).take 3
      if step.2 then fnLoop net target fuel closest2 seen2 queried2
      else closest2.take 3

/-- `DHTProtocol.find_node` (α = 3). -/
def dht_find_node (env : DHTEnv) (target : NodeID) (fuel : Nat) : List Node :=
  let closest := env.rt.find_closest_nodes target 3
  match env.net with
  | none => closest
  | some net =>
    let seen := closest.foldl dictInsert []
    fnLoop net target fuel closest seen []

/-- Iterative loop of `DHTProtocol.find_value`.  Besides the result it returns
the list of peers to which a `FIND_VALUE` RPC was issued (in order), which the
theorems quantify over.  Running out of fuel exits the loop exactly as a
`break` would: the function falls through to `raise ValueNotFoundError`. -/
def fvLoop (net : Net) (target : NodeID) :
    Nat → List Node → List Node → List NodeID → List Node →
    Except Unit Bytes × List Node
  | 0, _, _, _, contacted => (.error (), contacted)
  | fuel + 1, closest, seen, queried, contacted =>
    let candidates := (closest.filter (fun n => ¬ queried.any (fun j => j = n.node_id))).take 3
    if candidates.isEmpty then (.error (), contacted)
    else
      let contacted2 := contacted ++ candidates
      match candidates.findSome? (fun c => peerValue net c) with
      | some v => (.ok v, contacted2)
      | none =>
        let seen2 := candidates.foldl
          (fun s c =>
            match net.fnAt c with
            | .ok lst => lst.foldl insertIfAbsent s
            | .error _ => s) seen
        let queried2 := candidates.foldl (fun q c => addQueried q c.node_id) queried
        let closest2 := (List.insertionSort (distLe target) seen2).take 3
        if seen2.length ≤ queried2.length then (.error (), contacted2)
        else fvLoop net target fuel closest2 seen2 queried2 contacted2

/-- `DHTProtocol.find_value`: local storage first, then the iterative lookup;
`Except.error ()` is `raise ValueNotFoundError`.  The second component is the
list of peers the lookup sent a `FIND_VALUE` RPC to. -/
def dht_find_value (env : DHTEnv) (key : Bytes) (fuel : Nat) :
    Except Unit Bytes × List Node :=
  match env.localGet key with
  | some v => (.ok v, [])
  | none =>
    match env.net with
    | none => (.error (), [])
    | some net =>
      let target := mkTargetId key
      let closest := env.rt.find_closest_nodes target 3
      let seen := closest.foldl dictInsert []
      fvLoop net target fuel closest seen [] []

/-- `DHTProtocol.store`: local put first (its failure propagates as
`Except.error`); then STORE to the peers found by `find_node` (falling back to
the routing table), returning `success_count > 0`; `True` when there are no
peers at all. -/
def dht_store (env : DHTEnv) (key : Bytes) (fuel : Nat) : Except Unit Bool :=
  if ¬ env.localPutOk then .error ()
  else
    match env.net with
    | none => .ok true
    | some net =>
      let target := mkTargetId key
      let closest0 := dht_find_node env target fuel
      let closest_nodes :=
        if closest0.isEmpty then env.rt.find_closest_nodes target env.rt.k
        else closest0
      if closest_nodes.isEmpty then .ok true
      else
        let results := (closest_nodes.take env.rt.k).map net.storeAt
        let success_count := results.countP
          (fun r => match r with | .ok true => true | _ => false)
        .ok (decide (0 < success_count))

/-! ## Popularity ranker (`popularity/ranking.py`) -/

/-- The numeric fields of `popularity/metrics.py: PopularityMetrics` that
`calculate_score` and `rank_items` read (floats and ints are both modelled as
ℚ; the request-timestamp deque and requester set feed only the collector,
which is not involved in the claims). -/
structure PopularityMetrics where
  key : Bytes
  request_rate : ℚ
  replication_count : ℚ
  freshness_score : ℚ
  audience_size : ℚ
  social_engagements : ℚ
  seed_coverage : ℚ
  first_seen : ℚ
  last_request : ℚ
deriving DecidableEq

/-- The six feature weights (the Python `weights` dict). -/
structure Weights where
  request_rate : ℚ
  replication_factor : ℚ
  freshness : ℚ
  audience_size : ℚ
  social_engagements : ℚ
  seed_coverage : ℚ

/-- The base weight table of `calculate_score` (0.25 / 0.20 / 0.15 / 0.10 /
0.20 / 0.10 written as exact rationals). -/
def baseWeights : Weights :=
  ⟨25/100, 20/100, 15/100, 10/100, 20/100, 10/100⟩

/-- The age-adaptive weight mutations of `calculate_score`. -/
def adaptiveWeights (age_seconds : ℚ) : Weights :=
  if age_seconds < 86400 then
    { baseWeights with freshness := 30/100, social_engagements := 10/100,
                       seed_coverage := 5/100 }
  else if age_seconds < 604800 then
    { baseWeights with social_engagements := 30/100, freshness := 10/100,
                       seed_coverage := 5/100 }
  else
    { baseWeights with seed_coverage := 25/100, social_engagements := 15/100,
                       freshness := 5/100 }

def Weights.sum (w : Weights) : ℚ :=
  w.request_rate + w.replication_factor + w.freshness + w.audience_size +
    w.social_engagements + w.seed_coverage

/-- The six normalized feature values (the dict `_normalize_metrics` returns). -/
structure Normalized where
  request_rate : ℚ
  replication_factor : ℚ
  freshness : ℚ
  audience_size : ℚ
  social_engagements : ℚ
  seed_coverage : ℚ

/-- `PopularityRanker._normalize_metrics`: the divided features are capped
above by `min(1.0, ...)`; `freshness_score` and `seed_coverage` are passed
through unchanged. -/
def normalize_metrics (m : PopularityMetrics) : Normalized :=
  ⟨min 1 (m.request_rate / 100),
   min 1 (m.replication_count / 20),
   m.freshness_score,
   min 1 (m.audience_size / 50),
   min 1 (m.social_engagements / 100),
   m.seed_coverage⟩

/-- `PopularityRanker.calculate_score` (`now` stands for `time.time()`). -/
def calculate_score (now : ℚ) (m : PopularityMetrics)
    (adaptive_weights : Bool := true) : ℚ :=
  let w := if adaptive_weights then adaptiveWeights (now - m.first_seen)
           else baseWeights
  let nm := normalize_metrics m
  let score :=
    (nm.request_rate * w.request_rate +
     nm.replication_factor * w.replication_factor +
     nm.freshness * w.freshness +
     nm.audience_size * w.audience_size +
     nm.social_engagements * w.social_engagements +
     nm.seed_coverage * w.seed_coverage) * 10
  min 10 (max 0 score)

/-- The score the claim describes instead: every feature, `freshness_score`
and `seed_coverage` included, clamped to [0, 1] before weighting.  This
definition follows the claim's words, for comparison with `calculate_score`,
which follows the source. -/
def claimed_clamped_score (now : ℚ) (m : PopularityMetrics)
    (adaptive_weights : Bool := true) : ℚ :=
  let w := if adaptive_weights then adaptiveWeights (now - m.first_seen)
           else baseWeights
  let clamp01 : ℚ → ℚ := fun x => max 0 (min 1 x)
  let score :=
    (clamp01 (m.request_rate / 100) * w.request_rate +
     clamp01 (m.replication_count / 20) * w.replication_factor +
     clamp01 m.freshness_score * w.freshness +
     clamp01 (m.audience_size / 50) * w.audience_size +
     clamp01 (m.social_engagements / 100) * w.social_engagements +
     clamp01 m.seed_coverage * w.seed_coverage) * 10
  min 10 (max 0 score)

/-- `popularity/ranking.py: RankedItem` (`__lt__`/`__gt__` compare score only). -/
structure RankedItem where
  key : Bytes
  score : ℚ
  metrics : PopularityMetrics
deriving DecidableEq

/-- The order `ranked_items.sort(reverse=True)` sorts by: Python's stable sort
with all comparisons done through `RankedItem.__lt__`, i.e. by score only,
descending. -/
def scoreGE (a b : RankedItem) : Prop := b.score ≤ a.score

instance : DecidableRel scoreGE := fun a b => Rat.instDecidableLe b.score a.score

instance : IsTotal RankedItem scoreGE := ⟨fun a b => le_total b.score a.score⟩

instance : IsTrans RankedItem scoreGE := ⟨fun _ _ _ hab hbc => le_trans hbc hab⟩

/-- `PopularityRanker.rank_items`: score every entry of the metrics dict (in
insertion order), sort descending by score (stable), truncate when `limit` is
truthy. -/
def rank_items (now : ℚ) (metrics_dict : List (Bytes × PopularityMetrics))
    (limit : Option Nat) : List RankedItem :=
  let ranked_items := metrics_dict.map
    (fun kv => RankedItem.mk kv.1 (calculate_score now kv.2 true) kv.2)
  let sorted := List.insertionSort scoreGE ranked_items
  match limit with
  | some l => if l ≠ 0 then sorted.take l else sorted
  | none => sorted

/-- The ordering the claim asserts for `rank_items` output: descending score,
then descending `last_request`, then key bytes ascending (lexicographically). -/
def claimedRankOrder (a b : RankedItem) : Prop :=
  b.score < a.score ∨
    (a.score = b.score ∧
      (b.metrics.last_request < a.metrics.last_request ∨
        (a.metrics.last_request = b.metrics.last_request ∧
          bytesToNat a.key ≤ bytesToNat b.key)))

instance : DecidableRel claimedRankOrder := fun _ _ => by
  unfold claimedRankOrder; infer_instance

/-! ## Popularity exchanger (`popularity/exchanger.py`)

Only the consensus-score computation of `aggregate_global_ranking` is claim
relevant: the `defaultdict(list)` of observed scores per key (local rankings
first, then the scores received from other seeds), and the median each key's
score list is collapsed to.  The surrounding RPC fan-out, metrics lookup and
top-100 truncation do not alter those scores. -/

/-- `all_rankings[key].append(score)` on a `defaultdict(list)`. -/
def appendScore (m : List (Bytes × List ℚ)) (key : Bytes) (score : ℚ) :
    List (Bytes × List ℚ) :=
  if m.any (fun kv => kv.1 = key) then
    m.map (fun kv => if kv.1 = key then (kv.1, kv.2 ++ [score]) else kv)
  else m ++ [(key, [score])]

/-- The per-key score lists `aggregate_global_ranking` builds: local rankings
first, then each received ranking in order. -/
def allRankings (local_rankings : List (Bytes × ℚ))
    (received : List (List (Bytes × ℚ))) : List (Bytes × List ℚ) :=
  received.foldl
    (fun m lst => lst.foldl (fun m p => appendScore m p.1 p.2) m)
    (local_rankings.foldl (fun m p => appendScore m p.1 p.2) [])

/-- `sorted_scores[len(sorted_scores) // 2]`: the consensus ("median") score
of one key's observed scores. -/
def medianScore (scores : List ℚ) : ℚ :=
  let sorted_scores := List.insertionSort (fun a b : ℚ => a ≤ b) scores
  sorted_scores.getD (sorted_scores.length / 2) 0

/-- Consensus score per key, as `aggregate_global_ranking` computes it. -/
def consensusScores (local_rankings : List (Bytes × ℚ))
    (received : List (List (Bytes × ℚ))) : List (Bytes × ℚ) :=
  (allRankings local_rankings received).map (fun kv => (kv.1, medianScore kv.2))

/-! ## Rate limiter (`security/rate_limiter.py`) -/

/-- `RateLimiter` state and parameters (defaults: 100 requests / 60 s window /
20 per node).  `node_requests` is the defaultdict, in insertion order; empty
histories are deleted by cleanup, and counting through a missing key reads an
empty history, so the transient empty deque a `defaultdict` read creates is
not modelled. -/
structure RateLimiter where
  max_requests : Nat
  window_seconds : ℚ
  per_node_limit : Nat
  request_history : List ℚ
  node_requests : List (Bytes × List ℚ)
deriving DecidableEq

/-- `RateLimiter(max_requests=100, window_seconds=60, per_node_limit=20)`. -/
def RateLimiter.init : RateLimiter := ⟨100, 60, 20, [], []⟩

/-- `deque.append` with a `maxlen`: drop from the left when over capacity. -/
def appendMax (maxlen : Nat) (l : List ℚ) (x : ℚ) : List ℚ :=
  let l2 := l ++ [x]
  if maxlen < l2.length then l2.drop (l2.length - maxlen) else l2

/-- Lookup in the per-node map (reading a missing key gives the empty
history). -/
def nodeHistory (m : List (Bytes × List ℚ)) (nid : Bytes) : List ℚ :=
  match m.find? (fun kv => kv.1 = nid) with
  | some kv => kv.2
  | none => []

/-- Append to the per-node map (`defaultdict` semantics: create on demand). -/
def nodeAppend (m : List (Bytes × List ℚ)) (nid : Bytes) (maxlen : Nat)
    (t : ℚ) : List (Bytes × List ℚ) :=
  if m.any (fun kv => kv.1 = nid) then
    m.map (fun kv => if kv.1 = nid then (kv.1, appendMax maxlen kv.2 t) else kv)
  else m ++ [(nid, appendMax maxlen [] t)]

/-- `RateLimiter._cleanup_old_requests`: popleft entries strictly older than
the window from the global history and every per-node history, deleting nodes
whose history empties. -/
def RateLimiter.cleanup (rl : RateLimiter) (current_time : ℚ) : RateLimiter :=
  { rl with
    request_history :=
      rl.request_history.dropWhile (fun ts => decide (rl.window_seconds < current_time - ts)),
    node_requests :=
      (rl.node_requests.map
        (fun kv => (kv.1, kv.2.dropWhile (fun ts => decide (rl.window_seconds < current_time - ts))))).filter
        (fun kv => ¬ kv.2.isEmpty) }

/-- `RateLimiter.check_rate_limit`: cleanup, check the global window, check
the per-node window (when a truthy `node_id` is given), and only then record
the request.  `Except.error ()` is `raise RateLimitError`. -/
def RateLimiter.check_rate_limit (rl : RateLimiter) (current_time : ℚ)
    (node_id : Option Bytes) : Except Unit Unit × RateLimiter :=
  let s1 := rl.cleanup current_time
  let recent_requests := s1.request_history.countP
    (fun ts => decide (current_time - ts < s1.window_seconds))
  if s1.max_requests ≤ recent_requests then (.error (), s1)
  else
    match node_id with
    | some nid =>
      if nid.isEmpty then
        ({ s1 with request_history := appendMax (s1.max_requests * 2) s1.request_history current_time }
          |> (.ok (), ·))
      else
        let node_recent := (nodeHistory s1.node_requests nid).countP
          (fun ts => decide (current_time - ts < s1.window_seconds))
        if s1.per_node_limit ≤ node_recent then (.error (), s1)
        else
          (.ok (),
           { s1 with
             request_history := appendMax (s1.max_requests * 2) s1.request_history current_time,
             node_requests := nodeAppend s1.node_requests nid (s1.per_node_limit * 2) current_time })
    | none =>
      (.ok (),
       { s1 with request_history := appendMax (s1.max_requests * 2) s1.request_history current_time })

/-- The rate-limit gate of `network/protocol.py: NetworkProtocol._handle_message`:
on `RateLimitError` the handler returns immediately, so the message is dropped
and no response of any kind is sent.  `true` means the message passes on to
request handling. -/
def handleGate (rl : RateLimiter) (current_time : ℚ) (nid : Bytes) :
    Bool × RateLimiter :=
  let (r, s') := rl.check_rate_limit current_time (some nid)
  (r.toBool, s')

/-- Feed a sequence of inbound messages from one sender through the gate,
collecting which of them pass. -/
def processAll (rl : RateLimiter) (nid : Bytes) : List ℚ → List Bool × RateLimiter
  | [] => ([], rl)
  | t :: ts =>
    let (b, s') := handleGate rl t nid
    let (bs, s'') := processAll s' nid ts
    (b :: bs, s'')

/-! ## Concrete data used by counterexamples and witnesses -/

/-- The all-zeros 20-byte id (the table's own id in the examples). -/
def selfId : NodeID := ⟨List.replicate 20 (0 : Byte), rfl⟩

/-- Id `80 00 ... 00`: leading differing bit 0, so bucket 0 of `selfId`. -/
def idA : NodeID := ⟨(128 : Byte) :: List.replicate 19 (0 : Byte), rfl⟩

/-- Id `04 00 ... 00`: leading differing bit 5, so bucket 5 of `selfId`. -/
def idB : NodeID := ⟨(4 : Byte) :: List.replicate 19 (0 : Byte), rfl⟩

/-- Id `00 ... 00 01`: leading differing bit 159, so bucket 159 of `selfId`. -/
def idT : NodeID := ⟨List.replicate 19 (0 : Byte) ++ [(1 : Byte)], rfl⟩

/-- Id `81 00 ... 00`: bucket 0 of `selfId`, at XOR distance 1 from `idA`. -/
def idC : NodeID := ⟨(129 : Byte) :: List.replicate 19 (0 : Byte), rfl⟩

def nodeA : Node := ⟨idA, "10.0.0.1", 8468, 0, 0⟩

def nodeB : Node := ⟨idB, "10.0.0.2", 8468, 0, 0⟩

def nodeC : Node := ⟨idC, "10.0.0.3", 8468, 0, 0⟩

/-- A routing table of `selfId` holding `nodeA` (bucket 0) and `nodeB`
(bucket 5), reached from a fresh table by two `add_node` calls. -/
def rtEx : RoutingTable :=
  (((RoutingTable.init selfId 20 160 0).add_node 0 nodeA).1.add_node 0 nodeB).1

/-- A routing table of `selfId` holding `nodeA` and `nodeC`, both in
bucket 0. -/
def rtEx2 : RoutingTable :=
  (((RoutingTable.init selfId 20 160 0).add_node 0 nodeA).1.add_node 0 nodeC).1

/-- A metrics record whose `freshness_score` is 2 (such records are
constructible, e.g. via `PopularityMetrics.from_dict` on received exchange
data), used against C5's clamping claim. -/
def mFresh2 : PopularityMetrics := ⟨[], 0, 0, 2, 0, 0, 0, 0, 0⟩

/-- Two metrics records that score identically (all features zero, age zero)
but differ in `last_request` (100 vs 200) and key (`[0]` vs `[1]`). -/
def mLR100 : PopularityMetrics := ⟨[(0 : Byte)], 0, 0, 0, 0, 0, 0, 0, 100⟩

def mLR200 : PopularityMetrics := ⟨[(1 : Byte)], 0, 0, 0, 0, 0, 0, 0, 200⟩

/-- A rate-limiter state as the claims' scenario builds it: the global window
holds exactly the per-sender entries `acc`, and the per-sender map holds
`acc` for that sender (absent when empty). -/
def rlState (nid : Bytes) (acc : List ℚ) : RateLimiter :=
  ⟨100, 60, 20, acc, if acc.isEmpty then [] else [(nid, acc)]⟩

/-- A degenerate limiter whose global cap is 0, used to exhibit a rejection
without any timestamp arithmetic. -/
def rlZeroCap : RateLimiter := ⟨0, 60, 0, [], []⟩

/-- A network where every `FIND_VALUE` returns no value (e.g. times out),
every `FIND_NODE` returns no peers, and every remote `STORE` fails. -/
def netAllFail : Net :=
  ⟨fun _ => .nores, fun _ => .ok [], fun _ => .ok false⟩

/-- The same unhelpful network expressed through exceptions instead of
timeouts. -/
def netAllExc : Net :=
  ⟨fun _ => .exc, fun _ => .error (), fun _ => .ok false⟩

/-- An engine whose local put succeeds, whose local store is empty, with the
routing table `rtEx` and the all-failing network. -/
def envAllFail : DHTEnv := ⟨rtEx, fun _ => none, true, some netAllFail⟩

/-- A 20-byte key (equal to `nodeA`'s id bytes). -/
def keyA : Bytes := idA.1

/-- The value the environment's network would return for a `FIND_VALUE` to
peer `p`, if any. -/
def envPeerValue (env : DHTEnv) (p : Node) : Option Bytes :=
  match env.net with
  | some net => peerValue net p
  | none => none

/-- Two per-peer `FIND_VALUE` outcomes that the engine cannot distinguish:
equal, or both value-less (a `None`, a timeout or an exception). -/
def fvEquiv (r r' : FVRes) : Prop :=
  r = r' ∨ ((∀ v, r ≠ .val v) ∧ (∀ v, r' ≠ .val v))

/-- Two per-peer `FIND_NODE` outcomes the engine cannot distinguish: equal,
or both contributing no peers (an exception or an empty list). -/
def fnEquiv (r r' : Except Unit (List Node)) : Prop :=
  r = r' ∨ ((r = .error () ∨ r = .ok []) ∧ (r' = .error () ∨ r' = .ok []))

/-- One mutation of a `RoutingTable`: an `add_node` or `remove_node` call at
wall-clock time `now`. -/
inductive RTOp where
  | add (now : ℚ) (n : Node)
  | remove (now : ℚ) (n : Node)

def applyOp (rt : RoutingTable) (op : RTOp) : RoutingTable :=
  match op with
  | .add now n => (rt.add_node now n).1
  | .remove now n => rt.remove_node now n

/-- The invariant conjunction C7 claims: a `node_id` appears in at most one
bucket and at most once there, the table's own id is never stored, and every
bucket holds at most `k` nodes. -/
def TableInv (rt : RoutingTable) : Prop :=
  (∀ i j : Nat, ∀ hi : i < rt.buckets.length, ∀ hj : j < rt.buckets.length,
    ∀ nid : NodeID,
      nid ∈ (rt.buckets.get ⟨i, hi⟩).nodes.map (fun n => n.node_id) →
      nid ∈ (rt.buckets.get ⟨j, hj⟩).nodes.map (fun n => n.node_id) → i = j) ∧
  (∀ b ∈ rt.buckets,
    (b.nodes.map (fun n => n.node_id)).Nodup ∧
    b.nodes.length ≤ rt.k ∧
    ∀ n ∈ b.nodes, n.node_id ≠ rt.node_id)

/-- The strengthened inductive invariant: additionally, every bucket has the
table's capacity and every stored node sits in the bucket its id indexes. -/
def SInv (rt : RoutingTable) : Prop :=
  (∀ b ∈ rt.buckets,
    b.k = rt.k ∧
    (b.nodes.map (fun n => n.node_id)).Nodup ∧
    b.nodes.length ≤ rt.k ∧
    ∀ n ∈ b.nodes, n.node_id ≠ rt.node_id) ∧
  (∀ i : Nat, ∀ hi : i < rt.buckets.length,
    ∀ n ∈ (rt.buckets.get ⟨i, hi⟩).nodes, rt.getBucketIndex n.node_id = i)

end Rhizome

namespace Rhizome

/-! # Theorems -/

/-! ## C9: NodeID and compute_distance validation -/

/-- C9.  Constructing a `NodeID` succeeds exactly for 20-byte strings and
preserves the bytes; every `NodeID` value therefore holds exactly 20 bytes.
`compute_distance` succeeds exactly on inputs of equal length and then
returns a distance of that same length, so every computed distance is well
defined. -/
theorem nodeId_and_distance_validation :
    (∀ b : Bytes, (∃ n, NodeID.mk? b = .ok n) ↔ b.length = 20) ∧
    (∀ b : Bytes, ∀ n : NodeID, NodeID.mk? b = .ok n → n.1 = b) ∧
    (∀ n : NodeID, n.1.length = 20) ∧
    (∀ a b : Bytes, (∃ d, compute_distance a b = .ok d) ↔ a.length = b.length) ∧
    (∀ a b d : Bytes, compute_distance a b = .ok d → d.length = a.length ∧
      d.length = b.length) := by
  refine ⟨fun b => ⟨fun ⟨n, hn⟩ => ?_, fun h => ⟨⟨b, h⟩, ?_⟩⟩,
    fun b n hn => ?_, fun n => n.2, fun a b => ⟨fun ⟨d, hd⟩ => ?_, fun h => ?_⟩,
    fun a b d hd => ?_⟩
  · by_contra h
    simp [NodeID.mk?, h] at hn
  · simp only [NodeID.mk?]
    rw [dif_pos h]
  · unfold NodeID.mk? at hn
    split at hn
    · cases hn; rfl
    · cases hn
  · by_contra h
    simp [compute_distance, h] at hd
  · exact ⟨xorBytes a b, by simp [compute_distance, h]⟩
  · unfold compute_distance at hd
    split at hd
    · cases hd
    · rename_i h
      cases hd
      constructor
      · simp [xorBytes]
        omega
      · simp [xorBytes]
        omega

/-- Witness for C9 at concrete inputs: a 20-byte id constructs, and the
distance of two 20-byte ids is defined. -/
theorem nodeId_and_distance_validation_witness :
    (∃ n, NodeID.mk? (List.replicate 20 (0 : Byte)) = .ok n) ∧
    (∃ d, compute_distance idA.1 idB.1 = .ok d) := by
  constructor
  · exact (nodeId_and_distance_validation.1 _).mpr (by decide)
  · exact (nodeId_and_distance_validation.2.2.2.1 idA.1 idB.1).mpr (by decide)

/-! ## C5: score formula and bounds -/

/-- C5 counterexample: `calculate_score` does not clamp `freshness_score`
(nor `seed_coverage`) to [0,1], so it differs from the claim's formula. -/
theorem calculate_score_not_clamped :
    calculate_score 0 mFresh2 true = 6 ∧ claimed_clamped_score 0 mFresh2 true = 3 ∧
      calculate_score 0 mFresh2 true ≠ claimed_clamped_score 0 mFresh2 true := by
  refine ⟨?_, ?_, ?_⟩ <;>
    norm_num [calculate_score, claimed_clamped_score, mFresh2, adaptiveWeights,
      baseWeights, normalize_metrics]

/-- C5 amended.  The divided features are capped above at 1, `freshness_score`
and `seed_coverage` enter unclamped; the age-adaptive weight rows each sum to
exactly 1; the weighted sum times 10 is clamped to [0,10], so the score always
lies in [0,10]. -/
theorem calculate_score_weights_and_bounds :
    (∀ (now : ℚ) (m : PopularityMetrics) (aw : Bool),
      0 ≤ calculate_score now m aw ∧ calculate_score now m aw ≤ 10) ∧
    (∀ age : ℚ, (adaptiveWeights age).sum = 1) ∧ baseWeights.sum = 1 := by
  refine ⟨fun now m aw => ⟨?_, ?_⟩, fun age => ?_, by norm_num [baseWeights, Weights.sum]⟩
  · exact le_min (by norm_num) (le_max_left 0 _)
  · exact min_le_left _ _
  · unfold adaptiveWeights
    split_ifs <;> norm_num [baseWeights, Weights.sum]

/-! ## C3: the consensus median -/

/-- In a `(· ≤ ·)`-sorted list split around an element `c`, at most the
elements left of `c` can be strictly below it. -/
theorem countP_lt_sorted_split (pre suf : List ℚ) (c : ℚ)
    (hs : (pre ++ c :: suf).Pairwise (· ≤ ·)) :
    (pre ++ c :: suf).countP (fun x => decide (x < c)) ≤ pre.length := by
  rcases List.pairwise_append.mp hs with ⟨-, hcs, -⟩
  rcases List.pairwise_cons.mp hcs with ⟨hc, -⟩
  rw [List.countP_append, List.countP_cons]
  have h0 : suf.countP (fun x => decide (x < c)) = 0 := by
    rw [List.countP_eq_zero]
    intro x hx
    simpa using not_lt.mpr (hc x hx)
  have h1 : pre.countP (fun x => decide (x < c)) ≤ pre.length := List.countP_le_length _
  simp only [decide_eq_true_eq, h0]
  rw [if_neg (lt_irrefl c)]
  omega

/-- In a `(· ≤ ·)`-sorted list split around an element `c`, at most the
elements right of `c` can be strictly above it. -/
theorem countP_gt_sorted_split (pre suf : List ℚ) (c : ℚ)
    (hs : (pre ++ c :: suf).Pairwise (· ≤ ·)) :
    (pre ++ c :: suf).countP (fun x => decide (c < x)) ≤ suf.length := by
  rcases List.pairwise_append.mp hs with ⟨-, -, hps⟩
  rw [List.countP_append, List.countP_cons]
  have h0 : pre.countP (fun x => decide (c < x)) = 0 := by
    rw [List.countP_eq_zero]
    intro x hx
    have := hps x hx c (List.mem_cons_self c suf)
    simpa using not_lt.mpr this
  have h1 : suf.countP (fun x => decide (c < x)) ≤ suf.length := List.countP_le_length _
  simp only [decide_eq_true_eq, h0]
  rw [if_neg (lt_irrefl c)]
  omega

/-- C3 counterexample.  One local score 7 for key `[1]` plus received scores
`[3, 8, 9]`: the observed scores are `[7, 3, 8, 9]`, and the code's
`sorted_scores[len // 2]` picks index 2 of `[3, 7, 8, 9]`, i.e. the
upper-middle 8 — not the lower-middle 7 the claim states. -/
theorem consensus_median_upper_middle_cex :
    consensusScores [([(1 : Byte)], 7)] [[([(1 : Byte)], 3), ([(1 : Byte)], 8), ([(1 : Byte)], 9)]]
      = [([(1 : Byte)], 8)] ∧ (8 : ℚ) ≠ 7 := by
  constructor
  · decide
  · decide

/-- C3 amended.  The consensus score of a nonempty list of observed scores is
the upper-median: it is one of the scores, at most half of the scores lie
strictly below it, and strictly fewer than half lie strictly above it (for
`[3, 7, 8, 9]` that element is 8, not 7). -/
theorem medianScore_is_upper_median (scores : List ℚ) (hne : scores ≠ []) :
    medianScore scores ∈ scores ∧
    2 * scores.countP (fun x => decide (x < medianScore scores)) ≤ scores.length ∧
    2 * scores.countP (fun x => decide (medianScore scores < x)) < scores.length := by
  obtain ⟨sorted, hsorted⟩ : ∃ s, List.insertionSort (fun a b : ℚ => a ≤ b) scores = s :=
    ⟨_, rfl⟩
  have hperm : sorted.Perm scores := hsorted ▸ List.perm_insertionSort _ _
  have hlen : sorted.length = scores.length := hperm.length_eq
  have hs : sorted.Pairwise (· ≤ ·) := hsorted ▸ List.sorted_insertionSort _ scores
  have hpos : 0 < scores.length := List.length_pos.mpr hne
  have hm : scores.length / 2 < sorted.length := by omega
  have hmed : medianScore scores = sorted[scores.length / 2] := by
    have h1 : medianScore scores = sorted.getD (sorted.length / 2) 0 := by
      unfold medianScore
      rw [hsorted]
    rw [h1, hlen]
    exact List.getD_eq_getElem _ _ hm
  have hsplit : sorted = sorted.take (scores.length / 2) ++
      sorted[scores.length / 2] :: sorted.drop (scores.length / 2 + 1) := by
    rw [← List.drop_eq_getElem_cons hm]
    exact (List.take_append_drop _ sorted).symm
  have hpre : (sorted.take (scores.length / 2)).length = scores.length / 2 := by
    rw [List.length_take]
    omega
  have hsuf : (sorted.drop (scores.length / 2 + 1)).length =
      sorted.length - (scores.length / 2 + 1) := List.length_drop _ _
  refine ⟨?_, ?_, ?_⟩
  · rw [hmed]
    exact hperm.mem_iff.mp (List.getElem_mem hm)
  · have h := countP_lt_sorted_split (sorted.take (scores.length / 2))
      (sorted.drop (scores.length / 2 + 1)) sorted[scores.length / 2]
      (by rw [← hsplit]; exact hs)
    rw [← hsplit] at h
    rw [hmed, ← hperm.countP_eq]
    omega
  · have h := countP_gt_sorted_split (sorted.take (scores.length / 2))
      (sorted.drop (scores.length / 2 + 1)) sorted[scores.length / 2]
      (by rw [← hsplit]; exact hs)
    rw [← hsplit] at h
    rw [hmed, ← hperm.countP_eq]
    omega

/-- Witness for C3's amended theorem at the spec's example scores
`[7, 3, 8, 9]`. -/
theorem medianScore_is_upper_median_witness :
    medianScore [(7 : ℚ), 3, 8, 9] ∈ [(7 : ℚ), 3, 8, 9] ∧
    2 * [(7 : ℚ), 3, 8, 9].countP (fun x => decide (x < medianScore [(7 : ℚ), 3, 8, 9])) ≤ 4 ∧
    2 * [(7 : ℚ), 3, 8, 9].countP (fun x => decide (medianScore [(7 : ℚ), 3, 8, 9] < x)) < 4 :=
  medianScore_is_upper_median [(7 : ℚ), 3, 8, 9] (by decide)

/-! ## C4: rank_items ordering -/

/-- C4 counterexample.  `ranked_items.sort(reverse=True)` compares through
`RankedItem.__lt__`, i.e. by score alone, and Python's sort is stable: two
equal-score items stay in dictionary insertion order.  Feeding the item with
`last_request = 100` first, the output keeps it first, violating the claimed
descending-`last_request` tie-break. -/
theorem rank_items_no_tiebreak_cex :
    rank_items 0 [([(0 : Byte)], mLR100), ([(1 : Byte)], mLR200)] none =
      [⟨[(0 : Byte)], 0, mLR100⟩, ⟨[(1 : Byte)], 0, mLR200⟩] ∧
    ¬ List.Pairwise claimedRankOrder
        (rank_items 0 [([(0 : Byte)], mLR100), ([(1 : Byte)], mLR200)] none) := by
  have hs1 : calculate_score 0 mLR100 true = 0 := by
    norm_num [calculate_score, adaptiveWeights, baseWeights, normalize_metrics, mLR100]
  have hs2 : calculate_score 0 mLR200 true = 0 := by
    norm_num [calculate_score, adaptiveWeights, baseWeights, normalize_metrics, mLR200]
  have hout : rank_items 0 [([(0 : Byte)], mLR100), ([(1 : Byte)], mLR200)] none =
      [⟨[(0 : Byte)], 0, mLR100⟩, ⟨[(1 : Byte)], 0, mLR200⟩] := by
    unfold rank_items
    simp [hs1, hs2, List.insertionSort, List.orderedInsert, scoreGE]
  refine ⟨hout, ?_⟩
  rw [hout]
  simp only [List.pairwise_cons, List.mem_singleton, List.not_mem_nil]
  intro h
  have := h.1 _ rfl
  rcases this with h1 | ⟨-, h2 | ⟨h3, -⟩⟩
  · exact absurd h1 (by norm_num)
  · exact absurd h2 (by norm_num [mLR100, mLR200])
  · exact absurd h3 (by norm_num [mLR100, mLR200])

/-- C4 amended.  The list `rank_items` returns is sorted by nonincreasing
score (spec property P11); equal-score items are kept in dictionary insertion
order by the stable sort and are not reordered by `last_request` or key. -/
theorem rank_items_sorted_desc (now : ℚ) (md : List (Bytes × PopularityMetrics))
    (limit : Option Nat) :
    List.Pairwise (fun a b : RankedItem => b.score ≤ a.score)
      (rank_items now md limit) := by
  unfold rank_items
  have hsorted :
      List.Pairwise scoreGE (List.insertionSort scoreGE
        (md.map (fun kv => RankedItem.mk kv.1 (calculate_score now kv.2 true) kv.2))) :=
    List.sorted_insertionSort scoreGE _
  cases limit with
  | none => exact hsorted
  | some l =>
    dsimp only
    by_cases hl : l ≠ 0
    · rw [if_pos hl]
      exact List.Pairwise.sublist (List.take_sublist _ _) hsorted
    · rw [if_neg hl]
      exact hsorted

/-! ## C2: find_closest_nodes -/

/-- Everything `gatherLoop` collects is either already in the accumulator or
held by some bucket. -/
theorem mem_gatherLoop (buckets : List KBucket) (bi count : Nat) :
    ∀ (os : List Nat) (acc : List Node) (x : Node),
      x ∈ gatherLoop buckets bi count os acc →
      x ∈ acc ∨ ∃ b ∈ buckets, x ∈ b.nodes := by
  intro os
  induction os with
  | nil =>
    intro acc x hx
    exact Or.inl hx
  | cons o os ih =>
    intro acc x hx
    unfold gatherLoop at hx
    dsimp only at hx
    have hbucket : ∀ z ∈ (buckets.getD ((bi + o) % buckets.length) default).get_nodes none,
        ∃ b ∈ buckets, z ∈ b.nodes := by
      intro z hz
      by_cases hlt : (bi + o) % buckets.length < buckets.length
      · rw [List.getD_eq_getElem _ _ hlt] at hz
        exact ⟨_, List.getElem_mem hlt, hz⟩
      · rw [List.getD_eq_default _ _ (le_of_not_lt hlt)] at hz
        simp [KBucket.get_nodes, default] at hz
    split at hx
    · rcases List.mem_append.mp hx with h | h
      · exact Or.inl h
      · exact Or.inr (hbucket x h)
    · rcases ih _ x hx with h | h
      · rcases List.mem_append.mp h with h' | h'
        · exact Or.inl h'
        · exact Or.inr (hbucket x h')
      · exact Or.inr h

/-- Membership in the flattening fold of `get_all_nodes`. -/
theorem mem_foldl_append_nodes (bs : List KBucket) :
    ∀ (init : List Node) (x : Node),
      x ∈ bs.foldl (fun acc b => acc ++ b.nodes) init ↔
        x ∈ init ∨ ∃ b ∈ bs, x ∈ b.nodes := by
  induction bs with
  | nil => intro init x; simp
  | cons b bs ih =>
    intro init x
    rw [List.foldl_cons, ih]
    simp [List.mem_append, or_assoc]

/-- C2 counterexample.  In `rtEx` the target `idT` falls in bucket 159; the
scan wraps to bucket 0, collects `nodeA` and stops with one candidate, never
visiting bucket 5 — yet `nodeB` (bucket 5) is strictly closer to the target.
So `find_closest_nodes` does not return the closest peer among all known
peers. -/
theorem find_closest_nodes_not_global_cex :
    rtEx.find_closest_nodes idT 1 = [nodeA] ∧
    nodeB ∈ rtEx.get_all_nodes ∧
    nodeDistKey nodeB idT < nodeDistKey nodeA idT := by
  refine ⟨by decide, by decide, by decide⟩

/-- C2 amended.  `find_closest_nodes target count` returns at most `count`
peers of the table, sorted by ascending XOR distance to the target, and they
are the closest among the candidates actually gathered — the buckets scanned
from the target's bucket onward (wrapping) until `count` candidates were
collected.  Known peers in unscanned buckets may be closer. -/
theorem find_closest_nodes_sorted_of_gathered (rt : RoutingTable) (target : NodeID)
    (count : Nat) :
    List.Pairwise (distLe target) (rt.find_closest_nodes target count) ∧
    (∀ x ∈ rt.find_closest_nodes target count, x ∈ rt.get_all_nodes) ∧
    (rt.find_closest_nodes target count).length ≤ count ∧
    (∀ x ∈ rt.find_closest_nodes target count, ∀ y ∈ rt.gathered target count,
      y ∉ rt.find_closest_nodes target count → distLe target x y) := by
  have hsorted : List.Pairwise (distLe target)
      (List.insertionSort (distLe target) (rt.gathered target count)) :=
    List.sorted_insertionSort _ _
  have hperm : (List.insertionSort (distLe target) (rt.gathered target count)).Perm
      (rt.gathered target count) := List.perm_insertionSort _ _
  refine ⟨?_, ?_, ?_, ?_⟩
  · exact List.Pairwise.sublist (List.take_sublist _ _) hsorted
  · intro x hx
    have hx1 : x ∈ List.insertionSort (distLe target) (rt.gathered target count) :=
      (List.take_sublist _ _).mem hx
    have hx2 : x ∈ rt.gathered target count := hperm.mem_iff.mp hx1
    have hx3 := mem_gatherLoop rt.buckets (rt.getBucketIndex target) count _ _ _ hx2
    rcases hx3 with h | h
    · cases h
    · exact (mem_foldl_append_nodes rt.buckets [] x).mpr (Or.inr h)
  · rw [RoutingTable.find_closest_nodes, List.length_take]
    omega
  · intro x hx y hy hyn
    have hy1 : y ∈ List.insertionSort (distLe target) (rt.gathered target count) :=
      hperm.mem_iff.mpr hy
    rw [← List.take_append_drop count
      (List.insertionSort (distLe target) (rt.gathered target count))] at hy1
    rcases List.mem_append.mp hy1 with h | h
    · exact absurd h hyn
    · have hsplit := List.pairwise_append.mp
        ((List.take_append_drop count
          (List.insertionSort (distLe target) (rt.gathered target count))).symm ▸ hsorted)
      exact hsplit.2.2 x hx y h

/-- Witness for C2's amended theorem: in `rtEx2` both `nodeA` and `nodeC` sit
in the gathered bucket, `find_closest_nodes idA 1` keeps `nodeA` and drops
`nodeC`, and indeed `nodeA` is at least as close to the target. -/
theorem find_closest_nodes_sorted_of_gathered_witness :
    distLe idA nodeA nodeC :=
  (find_closest_nodes_sorted_of_gathered rtEx2 idA 1).2.2.2 nodeA (by decide)
    nodeC (by decide) (by decide)

/-! ## C10: a rejected request consumes no quota -/

/-- `dropWhile` keeps a list whose entries all fail the predicate. -/
theorem dropWhile_eq_self_of {α : Type} (p : α → Bool) (l : List α)
    (h : ∀ x ∈ l, p x = false) : l.dropWhile p = l := by
  cases l with
  | nil => rfl
  | cons a t => simp [List.dropWhile_cons, h a (List.mem_cons_self a t)]

/-- A key absent from an association list reads the empty history. -/
theorem nodeHistory_eq_nil_of_not_mem (m : List (Bytes × List ℚ)) (n : Bytes)
    (h : n ∉ m.map Prod.fst) : nodeHistory m n = [] := by
  induction m with
  | nil => rfl
  | cons kv rest ih =>
    simp only [List.map_cons, List.mem_cons] at h
    push_neg at h
    unfold nodeHistory
    rw [List.find?_cons]
    have : (decide (kv.1 = n)) = false := by
      simp only [decide_eq_false_iff_not]
      exact fun he => h.1 he.symm
    rw [this]
    exact ih h.2

/-- Reading a matching head. -/
theorem nodeHistory_cons_eq (kv : Bytes × List ℚ) (rest : List (Bytes × List ℚ))
    (n : Bytes) (h : kv.1 = n) : nodeHistory (kv :: rest) n = kv.2 := by
  unfold nodeHistory
  rw [List.find?_cons, show (decide (kv.1 = n)) = true from decide_eq_true h]

/-- Skipping a non-matching head. -/
theorem nodeHistory_cons_ne (kv : Bytes × List ℚ) (rest : List (Bytes × List ℚ))
    (n : Bytes) (h : kv.1 ≠ n) : nodeHistory (kv :: rest) n = nodeHistory rest n := by
  unfold nodeHistory
  rw [List.find?_cons, show (decide (kv.1 = n)) = false from decide_eq_false h]

/-- The keys surviving cleanup come from the original map. -/
theorem keys_cleanup_subset (p : ℚ → Bool) (rest : List (Bytes × List ℚ)) (n : Bytes)
    (h : n ∈ ((rest.map (fun kv => (kv.1, kv.2.dropWhile p))).filter
      (fun kv => ¬ kv.2.isEmpty)).map Prod.fst) : n ∈ rest.map Prod.fst := by
  have h1 : (((rest.map (fun kv => (kv.1, kv.2.dropWhile p))).filter
      (fun kv => ¬ kv.2.isEmpty)).map Prod.fst).Sublist
      ((rest.map (fun kv => (kv.1, kv.2.dropWhile p))).map Prod.fst) :=
    (List.filter_sublist _).map _
  have h2 : (rest.map (fun kv => (kv.1, kv.2.dropWhile p))).map Prod.fst =
      rest.map Prod.fst := by
    rw [List.map_map]
    rfl
  exact h2 ▸ h1.mem h

/-- After cleanup, every per-node history is a sublist of what it was
(assuming the per-node keys are distinct, as they are for a Python dict). -/
theorem nodeHistory_cleanup_sublist (p : ℚ → Bool) (n : Bytes) :
    ∀ m : List (Bytes × List ℚ), (m.map Prod.fst).Nodup →
    (nodeHistory ((m.map (fun kv => (kv.1, kv.2.dropWhile p))).filter
      (fun kv => ¬ kv.2.isEmpty)) n).Sublist (nodeHistory m n) := by
  intro m
  induction m with
  | nil =>
    intro _
    exact List.Sublist.refl _
  | cons kv rest ih =>
    intro hnd
    simp only [List.map_cons, List.nodup_cons] at hnd
    obtain ⟨hnotin, hndrest⟩ := hnd
    rw [List.map_cons, List.filter_cons]
    by_cases hk : kv.1 = n
    · rw [nodeHistory_cons_eq kv rest n hk]
      by_cases hL : (kv.2.dropWhile p).isEmpty = true
      · rw [if_neg (by simp [hL])]
        have habs : n ∉ ((rest.map (fun kv => (kv.1, kv.2.dropWhile p))).filter
            (fun kv => ¬ kv.2.isEmpty)).map Prod.fst := by
          intro hmem
          exact hnotin (hk ▸ keys_cleanup_subset p rest n hmem)
        rw [nodeHistory_eq_nil_of_not_mem _ _ habs]
        exact List.nil_sublist _
      · rw [if_pos (by simp [hL])]
        rw [nodeHistory_cons_eq (kv.1, kv.2.dropWhile p) _ n hk]
        exact List.dropWhile_sublist p
    · by_cases hL : (kv.2.dropWhile p).isEmpty = true
      · rw [if_neg (by simp [hL])]
        rw [nodeHistory_cons_ne kv rest n hk]
        exact ih hndrest
      · rw [if_pos (by simp [hL])]
        rw [nodeHistory_cons_ne (kv.1, kv.2.dropWhile p) _ n hk,
          nodeHistory_cons_ne kv rest n hk]
        exact ih hndrest

/-- A rejecting `check_rate_limit` leaves exactly the cleaned-up state: every
`raise RateLimitError` happens before the appends. -/
theorem check_rate_limit_error_state (rl : RateLimiter) (t : ℚ)
    (node_id : Option Bytes) (e : Unit) (s' : RateLimiter)
    (h : rl.check_rate_limit t node_id = (.error e, s')) : s' = rl.cleanup t := by
  unfold RateLimiter.check_rate_limit at h
  dsimp only at h
  split at h
  · exact ((Prod.ext_iff.mp h).2).symm
  · split at h
    · split at h
      · simp at h
      · split at h
        · exact ((Prod.ext_iff.mp h).2).symm
        · simp at h
    · simp at h

/-- C10.  When `check_rate_limit` rejects, it records nothing: the resulting
global history and every per-node history are sublists of what they were (the
only removals being cleanup of entries older than the window), so a rejected
message consumes no quota. -/
theorem check_rate_limit_reject_consumes_nothing (rl : RateLimiter) (t : ℚ)
    (node_id : Option Bytes) (e : Unit) (s' : RateLimiter)
    (hkeys : (rl.node_requests.map Prod.fst).Nodup)
    (h : rl.check_rate_limit t node_id = (.error e, s')) :
    s'.request_history.Sublist rl.request_history ∧
    ∀ n : Bytes, (nodeHistory s'.node_requests n).Sublist
      (nodeHistory rl.node_requests n) := by
  have hs : s' = rl.cleanup t := check_rate_limit_error_state rl t node_id e s' h
  subst hs
  constructor
  · simp only [RateLimiter.cleanup]
    exact List.dropWhile_sublist _
  · intro n
    simp only [RateLimiter.cleanup]
    exact nodeHistory_cleanup_sublist _ n rl.node_requests hkeys

/-- Witness for C10 at a concrete rejecting call (global cap 0, so the very
first message is rejected with the state left untouched). -/
theorem check_rate_limit_reject_consumes_nothing_witness :
    rlZeroCap.request_history.Sublist rlZeroCap.request_history ∧
    ∀ n : Bytes, (nodeHistory rlZeroCap.node_requests n).Sublist
      (nodeHistory rlZeroCap.node_requests n) :=
  check_rate_limit_reject_consumes_nothing rlZeroCap 5 none () rlZeroCap
    (by decide) (by decide)

/-! ## C6: per-sender rate limiting drops exactly the excess -/

/-- Cleanup is the identity on a scenario state whose entries are all inside
the window. -/
theorem cleanup_rlState (nid : Bytes) (acc : List ℚ) (t : ℚ)
    (hold : ∀ x ∈ acc, ¬ (60 : ℚ) < t - x) :
    (rlState nid acc).cleanup t = rlState nid acc := by
  have hdw : acc.dropWhile (fun ts => decide ((60 : ℚ) < t - ts)) = acc :=
    dropWhile_eq_self_of _ _ (fun x hx => decide_eq_false (hold x hx))
  by_cases hacc : acc.isEmpty
  · simp [RateLimiter.cleanup, rlState, hacc, hdw]
  · simp [RateLimiter.cleanup, rlState, hacc, hdw]
    simpa using hacc

/-- One inbound message from sender `nid` on the scenario state: accepted and
recorded when the sender's window count is below 20, silently rejected
otherwise. -/
theorem handleGate_rlState (nid : Bytes) (hnid : nid ≠ []) (acc : List ℚ) (t : ℚ)
    (hlen : acc.length ≤ 20)
    (hwin : ∀ x ∈ acc, t - x < 60) :
    handleGate (rlState nid acc) t nid =
      if acc.length < 20 then (true, rlState nid (acc ++ [t]))
      else (false, rlState nid acc) := by
  have hold : ∀ x ∈ acc, ¬ (60 : ℚ) < t - x :=
    fun x hx => not_lt.mpr (le_of_lt (hwin x hx))
  have hcl := cleanup_rlState nid acc t hold
  have hEmpty : nid.isEmpty = false := by simpa using hnid
  by_cases hacc : acc = []
  · subst hacc
    simp [handleGate, RateLimiter.check_rate_limit, RateLimiter.cleanup, rlState,
      nodeHistory, nodeAppend, appendMax, hEmpty, Except.toBool]
  · have haccE : acc.isEmpty = false := by simpa using hacc
    have hcount : List.countP (fun ts => decide (t - ts < (60 : ℚ))) acc = acc.length :=
      List.countP_eq_length.mpr (fun a ha => decide_eq_true (hwin a ha))
    have hg200 : appendMax (100 * 2) acc t = acc ++ [t] := by
      unfold appendMax
      dsimp only
      rw [if_neg (by simp; omega)]
    have hg40 : appendMax (20 * 2) acc t = acc ++ [t] := by
      unfold appendMax
      dsimp only
      rw [if_neg (by simp; omega)]
    have hnapp : nodeAppend [(nid, acc)] nid (20 * 2) t = [(nid, acc ++ [t])] := by
      unfold nodeAppend
      rw [if_pos (by simp)]
      simp [hg40]
    unfold handleGate RateLimiter.check_rate_limit
    dsimp only
    rw [hcl]
    simp only [rlState, haccE, Bool.false_eq_true, if_false, hEmpty, hcount,
      nodeHistory_cons_eq (nid, acc) [] nid rfl, hnapp, hg200]
    rw [if_neg (show ¬ (100 ≤ acc.length) by omega)]
    by_cases hc : acc.length < 20
    · rw [if_neg (show ¬ (20 ≤ acc.length) by omega), if_pos hc]
      simp [rlState, Except.toBool, show (acc ++ [t]).isEmpty = false by simp]
    · rw [if_pos (show 20 ≤ acc.length by omega), if_neg hc]
      simp [rlState, Except.toBool, haccE]

/-- Feeding messages from one sender, all inside one window, through the gate
accepts exactly enough to bring the sender's recorded count to 20 and rejects
the rest. -/
theorem processAll_rlState (nid : Bytes) (hnid : nid ≠ []) :
    ∀ (ts acc : List ℚ),
      acc.length ≤ 20 →
      (∀ a, (a ∈ acc ∨ a ∈ ts) → ∀ b, (b ∈ acc ∨ b ∈ ts) → a - b < 60) →
      (processAll (rlState nid acc) nid ts).1 =
        List.replicate (min ts.length (20 - acc.length)) true ++
          List.replicate (ts.length - (20 - acc.length)) false := by
  intro ts
  induction ts with
  | nil =>
    intro acc _ _
    simp [processAll]
  | cons t ts ih =>
    intro acc hlen hwin
    have hstep := handleGate_rlState nid hnid acc t hlen
      (fun x hx => hwin t (Or.inr (List.mem_cons_self t ts)) x (Or.inl hx))
    unfold processAll
    dsimp only
    rw [hstep]
    by_cases hc : acc.length < 20
    · rw [if_pos hc]
      dsimp only
      have hrec := ih (acc ++ [t]) (by simp; omega)
        (by
          intro a ha b hb
          apply hwin
          · rcases ha with ha | ha
            · rcases List.mem_append.mp ha with h | h
              · exact Or.inl h
              · simp at h
                rw [h]
                exact Or.inr (List.mem_cons_self t ts)
            · exact Or.inr (List.mem_cons_of_mem t ha)
          · rcases hb with hb | hb
            · rcases List.mem_append.mp hb with h | h
              · exact Or.inl h
              · simp at h
                rw [h]
                exact Or.inr (List.mem_cons_self t ts)
            · exact Or.inr (List.mem_cons_of_mem t hb))
      rw [hrec]
      have e1 : min (ts.length + 1) (20 - acc.length) =
          min ts.length (20 - (acc ++ [t]).length) + 1 := by
        simp only [List.length_append, List.length_singleton]
        omega
      have e2 : (ts.length + 1) - (20 - acc.length) =
          ts.length - (20 - (acc ++ [t]).length) := by
        simp only [List.length_append, List.length_singleton]
        omega
      simp only [List.length_cons, e1, e2, List.replicate_succ, List.cons_append]
    · rw [if_neg hc]
      dsimp only
      have h20 : acc.length = 20 := by omega
      have hrec := ih acc hlen
        (by
          intro a ha b hb
          apply hwin
          · rcases ha with ha | ha
            · exact Or.inl ha
            · exact Or.inr (List.mem_cons_of_mem t ha)
          · rcases hb with hb | hb
            · exact Or.inl hb
            · exact Or.inr (List.mem_cons_of_mem t hb))
      rw [hrec, h20]
      simp
      exact (List.replicate_succ false ts.length).symm

/-- C6.  Twenty-five messages from one sender inside a single 60-second
window, starting from a fresh limiter (so the global window, holding at most
those 25 < 100 entries, never trips): exactly the first 20 pass the gate and
the last 5 are dropped, with no response sent for them. -/
theorem rate_limit_first_20_of_25 (ts : List ℚ) (nid : Bytes)
    (hlen : ts.length = 25) (hnid : nid ≠ [])
    (hwin : ∀ a ∈ ts, ∀ b ∈ ts, a - b < 60) :
    (processAll RateLimiter.init nid ts).1 =
      List.replicate 20 true ++ List.replicate 5 false := by
  have h0 : RateLimiter.init = rlState nid [] := rfl
  rw [h0]
  have h := processAll_rlState nid hnid ts [] (by simp)
    (by
      intro a ha b hb
      rcases ha with ha | ha
      · simp at ha
      rcases hb with hb | hb
      · simp at hb
      exact hwin a ha b hb)
  rw [h, hlen]
  norm_num

/-- Witness for C6: 25 messages at time 0 from sender `[0]`. -/
theorem rate_limit_first_20_of_25_witness :
    (processAll RateLimiter.init [(0 : Byte)] (List.replicate 25 (0 : ℚ))).1 =
      List.replicate 20 true ++ List.replicate 5 false :=
  rate_limit_first_20_of_25 (List.replicate 25 (0 : ℚ)) [(0 : Byte)]
    (by decide) (by decide)
    (by
      intro a ha b hb
      rw [List.eq_of_mem_replicate ha, List.eq_of_mem_replicate hb]
      norm_num)

/-! ## C1: store's result when every remote STORE fails -/

/-- C1.  In `envAllFail` the local put succeeds and a nonempty set of closest
peers is contacted, every remote `STORE` of which fails; `store` nevertheless
returns `False`, because the code returns `success_count > 0` counting remote
responses only.  The spec (step 5 of §4.4.1 and scenario 3) requires `True`
here on the strength of the successful local put. -/
theorem store_false_when_all_remotes_fail :
    envAllFail.localPutOk = true ∧
    (envAllFail.rt.find_closest_nodes (mkTargetId keyA) envAllFail.rt.k ≠ []) ∧
    dht_store envAllFail keyA 5 = .ok false := by
  refine ⟨rfl, by decide, by decide⟩

/-! ## C8: find_value raises ValueNotFound exactly on exhausted lookup -/

/-- `findSome?` only looks at the values of the function on the list. -/
theorem findSome_congr {α β : Type} (f g : α → Option β) :
    ∀ l : List α, (∀ a ∈ l, f a = g a) → l.findSome? f = l.findSome? g := by
  intro l
  induction l with
  | nil => intro _; rfl
  | cons a t ih =>
    intro h
    rw [List.findSome?_cons, List.findSome?_cons, h a (List.mem_cons_self a t),
      ih (fun x hx => h x (List.mem_cons_of_mem a hx))]

/-- Equivalent per-peer outcomes produce the same `peerValue`. -/
theorem peerValue_congr (net net' : Net) (p : Node)
    (h : fvEquiv (net.fvAt p) (net'.fvAt p)) : peerValue net p = peerValue net' p := by
  rcases h with h | ⟨h1, h2⟩
  · unfold peerValue
    rw [h]
  · have e1 : peerValue net p = none := by
      unfold peerValue
      rcases hv : net.fvAt p with v | - | -
      · exact absurd hv (h1 v)
      · rfl
      · rfl
    have e2 : peerValue net' p = none := by
      unfold peerValue
      rcases hv' : net'.fvAt p with v | - | -
      · exact absurd hv' (h2 v)
      · rfl
      · rfl
    rw [e1, e2]

/-- The `seen`-expansion step treats an RPC exception exactly like an empty
peer list. -/
theorem seenFold_congr (net net' : Net)
    (hfn : ∀ p, fnEquiv (net.fnAt p) (net'.fnAt p)) (candidates : List Node) :
    ∀ seen : List Node,
      candidates.foldl
        (fun s c => match net.fnAt c with
          | .ok lst => lst.foldl insertIfAbsent s
          | .error _ => s) seen =
      candidates.foldl
        (fun s c => match net'.fnAt c with
          | .ok lst => lst.foldl insertIfAbsent s
          | .error _ => s) seen := by
  intro seen
  apply List.foldl_ext
  intro s c _
  rcases hfn c with h | ⟨h1, h2⟩
  · rw [h]
  · have e1 : (match net.fnAt c with
        | .ok lst => lst.foldl insertIfAbsent s
        | .error _ => s) = s := by
      rcases h1 with h1 | h1 <;> rw [h1] <;> rfl
    have e2 : (match net'.fnAt c with
        | .ok lst => lst.foldl insertIfAbsent s
        | .error _ => s) = s := by
      rcases h2 with h2 | h2 <;> rw [h2] <;> rfl
    rw [e1, e2]

/-- The iterative loop of `find_value` cannot tell two equivalent networks
apart: per-peer failures are absorbed. -/
theorem fvLoop_congr (net net' : Net) (target : NodeID)
    (hfv : ∀ p, fvEquiv (net.fvAt p) (net'.fvAt p))
    (hfn : ∀ p, fnEquiv (net.fnAt p) (net'.fnAt p)) :
    ∀ (fuel : Nat) (closest seen : List Node) (queried : List NodeID)
      (contacted : List Node),
      fvLoop net target fuel closest seen queried contacted =
        fvLoop net' target fuel closest seen queried contacted := by
  intro fuel
  induction fuel with
  | zero => intro _ _ _ _; rfl
  | succ fuel ih =>
    intro closest seen queried contacted
    unfold fvLoop
    dsimp only
    rw [findSome_congr (fun c => peerValue net c) (fun c => peerValue net' c) _
      (fun c _ => peerValue_congr net net' c (hfv c))]
    rw [seenFold_congr net net' hfn]
    simp only [ih]

/-- While looping, if no contacted peer so far had the value, the loop raises
`ValueNotFound` exactly when no contacted peer at all returns a value. -/
theorem fvLoop_error_iff (net : Net) (target : NodeID) :
    ∀ (fuel : Nat) (closest seen : List Node) (queried : List NodeID)
      (contacted : List Node),
      (∀ p ∈ contacted, peerValue net p = none) →
      (((fvLoop net target fuel closest seen queried contacted).1 = .error ()) ↔
        ∀ p ∈ (fvLoop net target fuel closest seen queried contacted).2,
          peerValue net p = none) := by
  intro fuel
  induction fuel with
  | zero =>
    intro closest seen queried contacted hinv
    exact ⟨fun _ => hinv, fun _ => rfl⟩
  | succ fuel ih =>
    intro closest seen queried contacted hinv
    unfold fvLoop
    dsimp only
    by_cases hcand : ((closest.filter
        (fun n => ¬ queried.any (fun j => j = n.node_id))).take 3).isEmpty
    · rw [if_pos hcand]
      exact ⟨fun _ => hinv, fun _ => rfl⟩
    · rw [if_neg hcand]
      rcases hfs : (closest.filter
          (fun n => ¬ queried.any (fun j => j = n.node_id))).take 3 |>.findSome?
          (fun c => peerValue net c) with - | v
      · rw [hfs]
        have hinv2 : ∀ p ∈ contacted ++ (closest.filter
            (fun n => ¬ queried.any (fun j => j = n.node_id))).take 3,
            peerValue net p = none := by
          intro p hp
          rcases List.mem_append.mp hp with h | h
          · exact hinv p h
          · exact List.findSome?_eq_none.mp hfs p h
        by_cases hbreak : (((closest.filter
              (fun n => ¬ queried.any (fun j => j = n.node_id))).take 3).foldl
              (fun s c => match net.fnAt c with
                | .ok lst => lst.foldl insertIfAbsent s
                | .error _ => s) seen).length ≤
            ((((closest.filter
              (fun n => ¬ queried.any (fun j => j = n.node_id))).take 3)).foldl
              (fun q c => addQueried q c.node_id) queried).length
        · rw [if_pos hbreak]
          exact ⟨fun _ => hinv2, fun _ => rfl⟩
        · rw [if_neg hbreak]
          exact ih _ _ _ _ hinv2
      · rw [hfs]
        rcases List.exists_of_findSome?_eq_some hfs with ⟨c, hc, hcv⟩
        constructor
        · intro h
          cases h
        · intro hall
          have := hall c (List.mem_append.mpr (Or.inr hc))
          rw [this] at hcv
          cases hcv

/-- C8.  `find_value` raises `ValueNotFound` exactly when the local store
misses and no peer the iterative lookup contacted returned a value; and
per-peer network failures and timeouts are absorbed — replacing any peer's
timeout by an exception (or an exception by an empty `FIND_NODE` reply)
cannot change the call's outcome, so such failures never propagate to the
caller. -/
theorem find_value_raises_iff_exhausted :
    (∀ (env : DHTEnv) (key : Bytes) (fuel : Nat),
      ((dht_find_value env key fuel).1 = .error () ↔
        (env.localGet key = none ∧
          ∀ p ∈ (dht_find_value env key fuel).2, envPeerValue env p = none))) ∧
    (∀ (rt : RoutingTable) (lg : Bytes → Option Bytes) (lp : Bool)
       (net net' : Net) (key : Bytes) (fuel : Nat),
      (∀ p, fvEquiv (net.fvAt p) (net'.fvAt p)) →
      (∀ p, fnEquiv (net.fnAt p) (net'.fnAt p)) →
      dht_find_value ⟨rt, lg, lp, some net⟩ key fuel =
        dht_find_value ⟨rt, lg, lp, some net'⟩ key fuel) := by
  constructor
  · intro env key fuel
    unfold dht_find_value
    rcases hl : env.localGet key with - | v
    · rcases hn : env.net with - | net
      · dsimp only
        simp
      · dsimp only
        have h := fvLoop_error_iff net (mkTargetId key) fuel
          (env.rt.find_closest_nodes (mkTargetId key) 3)
          ((env.rt.find_closest_nodes (mkTargetId key) 3).foldl dictInsert [])
          [] [] (by intro p hp; cases hp)
        rw [h]
        have he : ∀ p : Node, envPeerValue env p = peerValue net p := by
          intro p
          unfold envPeerValue
          rw [hn]
        constructor
        · intro hall
          exact ⟨rfl, fun p hp => (he p).symm ▸ hall p hp⟩
        · rintro ⟨-, hall⟩ p hp
          exact (he p) ▸ hall p hp
    · dsimp only
      constructor
      · intro h
        cases h
      · rintro ⟨h, -⟩
        cases h
  · intro rt lg lp net net' key fuel hfv hfn
    unfold dht_find_value
    dsimp only
    rcases hl : lg key with - | v
    · dsimp only
      exact fvLoop_congr net net' (mkTargetId key) hfv hfn fuel _ _ _ _
    · rfl

/-- Witness for C8 at the concrete all-failing environment: the lookup fails
with `ValueNotFound` there (local miss, no peer helps), and swapping timeouts
for exceptions leaves the outcome unchanged. -/
theorem find_value_raises_iff_exhausted_witness :
    ((dht_find_value envAllFail keyA 5).1 = .error () ↔
      (envAllFail.localGet keyA = none ∧
        ∀ p ∈ (dht_find_value envAllFail keyA 5).2, envPeerValue envAllFail p = none)) ∧
    dht_find_value ⟨rtEx, fun _ => none, true, some netAllFail⟩ keyA 3 =
      dht_find_value ⟨rtEx, fun _ => none, true, some netAllExc⟩ keyA 3 := by
  constructor
  · exact find_value_raises_iff_exhausted.1 envAllFail keyA 5
  · exact find_value_raises_iff_exhausted.2 rtEx (fun _ => none) true netAllFail
      netAllExc keyA 3
      (fun p => Or.inr ⟨fun v h => FVRes.noConfusion h, fun v h => FVRes.noConfusion h⟩)
      (fun p => Or.inr ⟨Or.inr rfl, Or.inl rfl⟩)

/-! ## C7: routing-table invariants -/

/-- `list.remove` removes elements, never adds: the result is a sublist. -/
theorem removeFirstById_sublist (nid : NodeID) :
    ∀ l : List Node, (removeFirstById nid l).Sublist l := by
  intro l
  induction l with
  | nil => exact List.Sublist.refl _
  | cons m ms ih =>
    unfold removeFirstById
    by_cases hm : m.node_id = nid
    · rw [if_pos hm]
      exact List.sublist_cons_self m ms
    · rw [if_neg hm]
      exact List.Sublist.cons₂ m ih

/-- Removing a present node shortens the list by exactly one. -/
theorem removeFirstById_length (nid : NodeID) :
    ∀ l : List Node, l.any (fun m => m.node_id = nid) →
      (removeFirstById nid l).length + 1 = l.length := by
  intro l
  induction l with
  | nil => intro h; simp at h
  | cons m ms ih =>
    intro h
    unfold removeFirstById
    by_cases hm : m.node_id = nid
    · rw [if_pos hm]
      rfl
    · rw [if_neg hm]
      simp only [List.length_cons]
      have hms : ms.any (fun x => x.node_id = nid) := by
        rcases List.any_eq_true.mp h with ⟨x, hx, hxe⟩
        rcases List.mem_cons.mp hx with rfl | hx'
        · exact absurd (of_decide_eq_true hxe) hm
        · exact List.any_eq_true.mpr ⟨x, hx', hxe⟩
      have := ih hms
      omega

/-- In a list of distinct ids, removing `nid` removes every occurrence. -/
theorem removeFirstById_not_mem (nid : NodeID) :
    ∀ l : List Node, (l.map (fun x => x.node_id)).Nodup →
      nid ∉ (removeFirstById nid l).map (fun x => x.node_id) := by
  intro l
  induction l with
  | nil => intro _ h; simp [removeFirstById] at h
  | cons m ms ih =>
    intro hnd
    simp only [List.map_cons, List.nodup_cons] at hnd
    unfold removeFirstById
    by_cases hm : m.node_id = nid
    · rw [if_pos hm]
      rw [← hm]
      exact hnd.1
    · rw [if_neg hm]
      simp only [List.map_cons, List.mem_cons]
      rintro (h | h)
      · exact hm h.symm
      · exact ih hnd.2 h

/-- The properties of `KBucket.add_node` the table invariant needs: capacity
`K` is respected, ids stay distinct, and every resulting node is an old node
or the inserted one. -/
theorem kb_add_spec (b : KBucket) (now : ℚ) (n : Node) (K : Nat)
    (hk : b.k = K) (hlen : b.nodes.length ≤ K)
    (hnd : (b.nodes.map (fun x => x.node_id)).Nodup) :
    (b.add_node now n).1.k = K ∧
    (b.add_node now n).1.nodes.length ≤ K ∧
    ((b.add_node now n).1.nodes.map (fun x => x.node_id)).Nodup ∧
    (∀ m ∈ (b.add_node now n).1.nodes, m ∈ b.nodes ∨ m = n) := by
  unfold KBucket.add_node
  by_cases hc : nodesContain b.nodes n
  · rw [if_pos hc]
    refine ⟨hk, ?_, ?_, ?_⟩
    · have := removeFirstById_length n.node_id b.nodes hc
      simp only [List.length_append, List.length_singleton]
      omega
    · have hsub : ((removeFirstById n.node_id b.nodes).map (fun x => x.node_id)).Sublist
          (b.nodes.map (fun x => x.node_id)) :=
        (removeFirstById_sublist n.node_id b.nodes).map _
      have hnd2 := hnd.sublist hsub
      rw [List.map_append]
      rw [List.nodup_append]
      refine ⟨hnd2, by simp, ?_⟩
      intro x hx hx2
      simp only [List.map_cons, List.map_nil, List.mem_singleton] at hx2
      subst hx2
      exact removeFirstById_not_mem n.node_id b.nodes hnd hx
    · intro m hm
      rcases List.mem_append.mp hm with h | h
      · exact Or.inl ((removeFirstById_sublist n.node_id b.nodes).mem h)
      · simp only [List.mem_singleton] at h
        exact Or.inr h
  · rw [if_neg hc]
    by_cases hroom : b.nodes.length < b.k
    · rw [if_pos hroom]
      refine ⟨hk, by simp; omega, ?_, ?_⟩
      · rw [List.map_append, List.nodup_append]
        refine ⟨hnd, by simp, ?_⟩
        intro x hx hx2
        simp only [List.map_cons, List.map_nil, List.mem_singleton] at hx2
        subst hx2
        unfold nodesContain at hc
        rcases List.mem_map.mp hx with ⟨m, hm, hme⟩
        exact hc (List.any_eq_true.mpr ⟨m, hm, decide_eq_true hme⟩)
      · intro m hm
        rcases List.mem_append.mp hm with h | h
        · exact Or.inl h
        · simp only [List.mem_singleton] at h
          exact Or.inr h
    · rw [if_neg hroom]
      exact ⟨hk, hlen, hnd, fun m hm => Or.inl hm⟩

/-- `KBucket.remove_node` keeps the capacity field and only removes nodes. -/
theorem kb_remove_spec (b : KBucket) (now : ℚ) (node : Node) :
    (b.remove_node now node).k = b.k ∧
    (b.remove_node now node).nodes.Sublist b.nodes := by
  unfold KBucket.remove_node
  by_cases hc : nodesContain b.nodes node
  · rw [if_pos hc]
    exact ⟨rfl, removeFirstById_sublist node.node_id b.nodes⟩
  · rw [if_neg hc]
    exact ⟨rfl, List.Sublist.refl _⟩

/-- The bucket index ignores the bucket contents (only their number and the
table's own id matter), so replacing a bucket never re-indexes anything. -/
theorem getBucketIndex_set (rt : RoutingTable) (bi : Nat) (b2 : KBucket)
    (x : NodeID) :
    RoutingTable.getBucketIndex { rt with buckets := rt.buckets.set bi b2 } x =
      rt.getBucketIndex x := by
  unfold RoutingTable.getBucketIndex
  rw [List.length_set]

/-- Replacing bucket `bi` by a bucket whose nodes are old nodes of that very
bucket or new nodes indexed to `bi` preserves the strengthened invariant. -/
theorem sinv_set_bucket (rt : RoutingTable) (bi : Nat)
    (hbi : bi < rt.buckets.length) (b2 : KBucket) (h : SInv rt)
    (hk : b2.k = rt.k)
    (hmem : ∀ m ∈ b2.nodes, m ∈ (rt.buckets.get ⟨bi, hbi⟩).nodes ∨
      (m.node_id ≠ rt.node_id ∧ rt.getBucketIndex m.node_id = bi))
    (hnd : (b2.nodes.map (fun x => x.node_id)).Nodup)
    (hlen : b2.nodes.length ≤ rt.k) :
    SInv { rt with buckets := rt.buckets.set bi b2 } := by
  obtain ⟨hbuckets, hplace⟩ := h
  have hold := hbuckets _ (List.get_mem rt.buckets bi hbi)
  constructor
  · intro b hb
    rcases List.mem_or_eq_of_mem_set hb with hbold | rfl
    · exact hbuckets b hbold
    · refine ⟨hk, hnd, hlen, ?_⟩
      intro n hn
      rcases hmem n hn with hl | hr
      · exact hold.2.2.2 n hl
      · exact hr.1
  · intro i hi n hn
    rw [List.length_set] at hi
    have hget : (rt.buckets.set bi b2).get ⟨i, by rw [List.length_set]; exact hi⟩ =
        if bi = i then b2 else rt.buckets.get ⟨i, hi⟩ := by
      simp [List.get_eq_getElem, List.getElem_set]
    rw [getBucketIndex_set]
    by_cases hbieq : bi = i
    · rw [hget, if_pos hbieq] at hn
      rcases hmem n hn with hl | hr
      · subst hbieq
        exact hplace bi hbi n hl
      · rw [hr.2, hbieq]
    · rw [hget, if_neg hbieq] at hn
      exact hplace i hi n hn

/-- `add_node` preserves the strengthened invariant. -/
theorem sinv_add (rt : RoutingTable) (now : ℚ) (n : Node) (h : SInv rt) :
    SInv (rt.add_node now n).1 := by
  unfold RoutingTable.add_node
  by_cases hself : n.node_id = rt.node_id
  · rw [if_pos hself]
    exact h
  · rw [if_neg hself]
    dsimp only
    by_cases hbi : rt.getBucketIndex n.node_id < rt.buckets.length
    case neg =>
      have hset : ∀ b2 : KBucket,
          rt.buckets.set (rt.getBucketIndex n.node_id) b2 = rt.buckets :=
        fun b2 => List.set_eq_of_length_le (le_of_not_lt hbi)
      split
      · split
        · exact h
        · rw [hset]
          cases rt
          exact h
      · rw [hset]
        cases rt
        exact h
    case pos =>
      have hgetD : rt.buckets.getD (rt.getBucketIndex n.node_id) default =
          rt.buckets.get ⟨rt.getBucketIndex n.node_id, hbi⟩ :=
        List.getD_eq_getElem _ _ hbi
      have hold := h.1 _ (List.get_mem rt.buckets (rt.getBucketIndex n.node_id) hbi)
      rw [hgetD]
      split
      · rename_i hfull
        rcases hstale : (rt.buckets.get ⟨rt.getBucketIndex n.node_id, hbi⟩).nodes.filter
            (fun m => decide (m.is_stale now)) with - | ⟨s, rest⟩
        · rw [hstale]
          exact h
        · rw [hstale]
          dsimp only
          have hrem := kb_remove_spec (rt.buckets.get ⟨rt.getBucketIndex n.node_id, hbi⟩) now s
          have hremnd : (((rt.buckets.get ⟨rt.getBucketIndex n.node_id, hbi⟩).remove_node
              now s).nodes.map (fun x => x.node_id)).Nodup :=
            hold.2.1.sublist (hrem.2.map _)
          have hremlen : ((rt.buckets.get ⟨rt.getBucketIndex n.node_id, hbi⟩).remove_node
              now s).nodes.length ≤ rt.k :=
            le_trans hrem.2.length_le hold.2.2.1
          have hadd := kb_add_spec ((rt.buckets.get
              ⟨rt.getBucketIndex n.node_id, hbi⟩).remove_node now s) now n rt.k
            (hrem.1.trans hold.1) hremlen hremnd
          apply sinv_set_bucket rt _ hbi _ h hadd.1 _ hadd.2.2.1 hadd.2.1
          intro m hm
          rcases hadd.2.2.2 m hm with hl | rfl
          · exact Or.inl (hrem.2.mem hl)
          · exact Or.inr ⟨hself, rfl⟩
      · have hadd := kb_add_spec (rt.buckets.get ⟨rt.getBucketIndex n.node_id, hbi⟩)
          now n rt.k hold.1 hold.2.2.1 hold.2.1
        apply sinv_set_bucket rt _ hbi _ h hadd.1 _ hadd.2.2.1 hadd.2.1
        intro m hm
        rcases hadd.2.2.2 m hm with hl | rfl
        · exact Or.inl hl
        · exact Or.inr ⟨hself, rfl⟩

/-- `remove_node` preserves the strengthened invariant. -/
theorem sinv_remove (rt : RoutingTable) (now : ℚ) (n : Node) (h : SInv rt) :
    SInv (rt.remove_node now n) := by
  unfold RoutingTable.remove_node
  dsimp only
  by_cases hbi : rt.getBucketIndex n.node_id < rt.buckets.length
  case neg =>
    rw [List.set_eq_of_length_le (le_of_not_lt hbi)]
    cases rt
    exact h
  case pos =>
    have hgetD : rt.buckets.getD (rt.getBucketIndex n.node_id) default =
        rt.buckets.get ⟨rt.getBucketIndex n.node_id, hbi⟩ :=
      List.getD_eq_getElem _ _ hbi
    have hold := h.1 _ (List.get_mem rt.buckets (rt.getBucketIndex n.node_id) hbi)
    rw [hgetD]
    have hrem := kb_remove_spec (rt.buckets.get ⟨rt.getBucketIndex n.node_id, hbi⟩) now n
    apply sinv_set_bucket rt _ hbi _ h (hrem.1.trans hold.1) _
      (hold.2.1.sublist (hrem.2.map _)) (le_trans hrem.2.length_le hold.2.2.1)
    intro m hm
    exact Or.inl (hrem.2.mem hm)

/-- A freshly constructed table satisfies the strengthened invariant. -/
theorem sinv_init (node_id : NodeID) (k bucket_count : Nat) (now : ℚ) :
    SInv (RoutingTable.init node_id k bucket_count now) := by
  constructor
  · intro b hb
    rw [List.eq_of_mem_replicate hb]
    exact ⟨rfl, by simp, by simp, by simp⟩
  · intro i hi n hn
    have : (RoutingTable.init node_id k bucket_count now).buckets.get ⟨i, hi⟩ =
        ⟨k, [], now⟩ := by
      simp [RoutingTable.init, List.get_eq_getElem, List.getElem_replicate]
    rw [this] at hn
    cases hn

/-- Any sequence of operations preserves the strengthened invariant. -/
theorem sinv_fold (ops : List RTOp) :
    ∀ rt : RoutingTable, SInv rt → SInv (ops.foldl applyOp rt) := by
  induction ops with
  | nil => intro rt h; exact h
  | cons op ops ih =>
    intro rt h
    rw [List.foldl_cons]
    apply ih
    cases op with
    | add now n => exact sinv_add rt now n h
    | remove now n => exact sinv_remove rt now n h

/-- The claim's invariant conjunction follows from the strengthened one. -/
theorem tableInv_of_sinv (rt : RoutingTable) (h : SInv rt) : TableInv rt := by
  obtain ⟨hbuckets, hplace⟩ := h
  constructor
  · intro i j hi hj nid hmi hmj
    rcases List.mem_map.mp hmi with ⟨m, hm, hme⟩
    rcases List.mem_map.mp hmj with ⟨m', hm', hme'⟩
    have h1 := hplace i hi m hm
    have h2 := hplace j hj m' hm'
    rw [hme] at h1
    rw [hme'] at h2
    rw [← h1, ← h2]
  · intro b hb
    have := hbuckets b hb
    exact ⟨this.2.1, this.2.2.1, this.2.2.2⟩

/-- C7.  Every sequence of `add_node` / `remove_node` operations, starting
from a fresh 160-bucket table, maintains the conjunction: no `node_id` in
more than one bucket and at most once per bucket, the table's own id never
stored, and every bucket within its capacity `k`. -/
theorem routing_table_invariants (selfid : NodeID) (k : Nat) (now0 : ℚ)
    (ops : List RTOp) :
    TableInv (ops.foldl applyOp (RoutingTable.init selfid k 160 now0)) :=
  tableInv_of_sinv _ (sinv_fold ops _ (sinv_init selfid k 160 now0))

end Rhizome
